import Mathlib

/-!
Shallow embedding of the `grit` branch browser core (Rust): the git data-access
layer (`src/core/src/git.rs`, `src/core/src/git/{repo,branch}.rs`) and the
branch catalog (`src/core/src/app/{mod,app,branch}.rs`).

Pure functions are translated directly; stateful Rust methods become functions
from the state to a new state.  External collaborators (libgit2 revwalk, chrono
timestamp conversion, ratatui `ListState`) are not part of the repository
source; they are modelled from the specification, and each such definition is
marked `Modelled from the spec:` in its doc comment.
-/

namespace Grit

/-! ### Comparators

Rust comparators return `std::cmp::Ordering`; we mirror them with Lean's
`Ordering`.  `Vec::sort_by` is a stable sort ordered by the comparator; for a
comparator that is a total preorder, every stable sort produces the same list,
so we embed it as Mathlib's (stable) `List.insertionSort` run with the
relation `cmp a b ≠ .gt`.
-/

/-- Comparison of natural numbers, as Rust's `Ord for usize/u32`. -/
def cmpNat (a b : Nat) : Ordering :=
  if a < b then .lt else if a = b then .eq else .gt

/-- Comparison of integers, as Rust's `Ord for i64`. -/
def cmpInt (a b : Int) : Ordering :=
  if a < b then .lt else if a = b then .eq else .gt

/-- Lexicographic comparison of lists, as Rust's derived `Ord` on sequences. -/
def cmpList (c : α → α → Ordering) : List α → List α → Ordering
  | [], [] => .eq
  | [], _ :: _ => .lt
  | _ :: _, [] => .gt
  | a :: as, b :: bs =>
    match c a b with
    | .eq => cmpList c as bs
    | o => o

/-- Character comparison by code point.  UTF-8 byte order coincides with code
point order, so this matches Rust's byte-wise `Ord for str`. -/
def cmpChar (a b : Char) : Ordering :=
  cmpNat a.toNat b.toNat

/-- Rust's `Ord for String`: lexicographic byte-order comparison. -/
def cmpString (a b : String) : Ordering :=
  cmpList cmpChar a.data b.data

/-- Rust's derived `Ord for Option<i64>`: `None` sorts below every `Some`. -/
def cmpOptionInt : Option Int → Option Int → Ordering
  | none, none => .eq
  | none, some _ => .lt
  | some _, none => .gt
  | some a, some b => cmpInt a b

/-- The "less or equal" relation induced by a comparator: `c a b ≠ .gt`.
`Vec::sort_by` sorts into non-descending order with respect to this. -/
def leCmp (c : α → α → Ordering) (a b : α) : Prop :=
  c a b ≠ Ordering.gt

instance leCmpDecidable (c : α → α → Ordering) : DecidableRel (leCmp c) :=
  fun a b => inferInstanceAs (Decidable (c a b ≠ Ordering.gt))

/-- Embedding of Rust's stable `Vec::sort_by` with comparator `c`. -/
def sortByCmp (c : α → α → Ordering) (l : List α) : List α :=
  List.insertionSort (leCmp c) l

theorem sortByCmp_perm (c : α → α → Ordering) (l : List α) :
    (sortByCmp c l).Perm l :=
  List.perm_insertionSort (leCmp c) l

theorem sortByCmp_length (c : α → α → Ordering) (l : List α) :
    (sortByCmp c l).length = l.length :=
  List.length_insertionSort (leCmp c) l

theorem sortByCmp_sorted (c : α → α → Ordering)
    [IsTotal α (leCmp c)] [IsTrans α (leCmp c)] (l : List α) :
    (sortByCmp c l).Pairwise (leCmp c) :=
  List.sorted_insertionSort (leCmp c) l

theorem cmpInt_ne_gt_iff (a b : Int) : cmpInt a b ≠ .gt ↔ a ≤ b := by
  unfold cmpInt
  split_ifs with h1 h2 <;> simp <;> omega

theorem cmpOptionInt_ne_gt_total (x y : Option Int) :
    cmpOptionInt x y ≠ .gt ∨ cmpOptionInt y x ≠ .gt := by
  cases x with
  | none => cases y <;> simp [cmpOptionInt]
  | some a =>
    cases y with
    | none => simp [cmpOptionInt]
    | some b =>
      simp only [cmpOptionInt, cmpInt_ne_gt_iff]
      omega

theorem cmpOptionInt_ne_gt_trans {x y z : Option Int}
    (h1 : cmpOptionInt x y ≠ .gt) (h2 : cmpOptionInt y z ≠ .gt) :
    cmpOptionInt x z ≠ .gt := by
  cases x with
  | none => cases z <;> simp [cmpOptionInt]
  | some a =>
    cases y with
    | none => simp [cmpOptionInt] at h1
    | some b =>
      cases z with
      | none => simp [cmpOptionInt] at h2
      | some csome =>
        simp only [cmpOptionInt, cmpInt_ne_gt_iff] at h1 h2 ⊢
        omega

theorem cmpOptionInt_some_none (a : Int) : cmpOptionInt (some a) none = .gt :=
  rfl

/-! ### Git layer (`src/core/src/git.rs`)

`git2::Repository`, its revwalk and `chrono`'s timestamp conversion are
external; their data is modelled as explicit structures, and their behavior is
modelled from the spec where marked.
-/

/-- `git2::BranchType`: a branch is either local or remote. -/
inductive BranchType
  | Local
  | Remote
deriving DecidableEq

/-- Typed failures of the git layer (the Rust code carries them as
`color_eyre::Report` values built from `wrap_err` contexts). -/
inductive GitError
  | findBranchFailed (name : String)
  | peelToCommitFailed
  | findCommitFailed (id : Nat)
  | invalidEpoch (epoch : Int)
  | enumerationFailed (msg : String)
deriving DecidableEq

instance exceptDecEq {ε α : Type} [DecidableEq ε] [DecidableEq α] :
    DecidableEq (Except ε α)
  | .error e1, .error e2 => decidable_of_iff (e1 = e2) (by simp)
  | .error _, .ok _ => Decidable.isFalse (by simp)
  | .ok _, .error _ => Decidable.isFalse (by simp)
  | .ok a, .ok b => decidable_of_iff (a = b) (by simp)

/-- Modelled from the spec: `chrono::DateTime::from_timestamp(epoch, 0)`
(external crate) succeeds exactly when the epoch seconds map to a representable
calendar instant; chrono's documented representable range is
`-8334601228800 ..= 8210266876799` seconds. -/
def representableEpoch (epoch : Int) : Bool :=
  -8334601228800 ≤ epoch && epoch ≤ 8210266876799

/-- `Timestamp`: epoch seconds plus the derived calendar value.  The calendar
value is fully determined by the epoch (the commit's UTC offset is read but not
applied — see the `todo` in the source), so we carry it as the epoch itself. -/
structure Timestamp where
  epoch : Int
  dt : Int
deriving DecidableEq

/-- `impl TryFrom<git2::Time> for Timestamp`: reads the seconds and the offset,
ignores the offset, and fails iff `DateTime::from_timestamp` has no value. -/
def Timestamp.tryFromNative (epochSeconds offsetMinutes : Int) :
    Except GitError Timestamp :=
  if representableEpoch epochSeconds then
    Except.ok { epoch := epochSeconds, dt := epochSeconds }
  else
    Except.error (GitError.invalidEpoch epochSeconds)

/-- `Author`: name and email, both optional. -/
structure Author where
  name : Option String
  email : Option String
deriving DecidableEq

/-- A native commit object as surfaced by `git2`: identity, parent links and
the raw header data the code reads.  `summary`/`message`/`authorName`/
`authorEmail` are `Option` because git2 returns `None` for non-UTF-8 data. -/
structure RawCommit where
  id : Nat
  parents : List Nat
  summary : Option String
  message : Option String
  authorName : Option String
  authorEmail : Option String
  epoch : Int
  offsetMinutes : Int
deriving DecidableEq

/-- `Commit`: the decoded, immutable commit record. -/
structure Commit where
  summary : String
  message : String
  author : Author
  timestamp : Timestamp
deriving DecidableEq

/-- `impl TryFrom<git2::Commit> for Commit`: missing summary/message default to
empty, the author converts infallibly, and the timestamp conversion is the only
fallible step. -/
def Commit.tryFromRaw (rc : RawCommit) : Except GitError Commit :=
  let summary := rc.summary.getD ""
  let message := rc.message.getD ""
  let author : Author := { name := rc.authorName, email := rc.authorEmail }
  match Timestamp.tryFromNative rc.epoch rc.offsetMinutes with
  | .error e => .error e
  | .ok timestamp => .ok { summary, message, author, timestamp }

/-- A branch reference record of the native repository: name, kind, tip id. -/
structure RefEntry where
  name : String
  typ : BranchType
  tip : Nat
deriving DecidableEq

/-- `RepoInner`: the native `git2::Repository` state, modelled as its commit
graph and its branch references. -/
structure RepoInner where
  commits : List RawCommit
  refs : List RefEntry
deriving DecidableEq

/-- `Repository`: the shared handle (the `Arc` reference counting is dropped
in the embedding; sharing is irrelevant to the pure semantics). -/
structure Repository where
  inner : RepoInner
deriving DecidableEq

/-- `git2::Repository::find_commit`: look a commit up by id. -/
def findCommit (repo : RepoInner) (id : Nat) : Option RawCommit :=
  repo.commits.find? (fun c => c.id == id)

/-- `git2::Repository::find_branch` followed by `peel_to_commit`: resolve a
branch reference by name and kind. -/
def findRef (repo : RepoInner) (name : String) (typ : BranchType) :
    Option RefEntry :=
  repo.refs.find? (fun r => r.name == name && decide (r.typ = typ))

/-- Modelled from the spec: the reachable-commit collection step of the libgit2
revwalk — "visiting each reachable commit at most once" — as a fuel-bounded
graph search from the tip.  Ids whose commit is absent from the repository are
kept so that the subsequent `find_commit` fails as in the source. -/
def reachableAux (repo : RepoInner) : Nat → List Nat → List Nat → List Nat
  | 0, _, visited => visited.reverse
  | _ + 1, [], visited => visited.reverse
  | fuel + 1, id :: frontier, visited =>
    if id ∈ visited then reachableAux repo fuel frontier visited
    else
      match findCommit repo id with
      | none => reachableAux repo fuel frontier (id :: visited)
      | some c => reachableAux repo fuel (frontier ++ c.parents) (id :: visited)

/-- Fuel exhausting the graph: one step per commit plus one per parent edge,
per possible revisit. -/
def walkFuel (repo : RepoInner) : Nat :=
  (repo.commits.foldl (fun n c => n + c.parents.length + 1) 1) *
    (repo.commits.length + 1)

/-- The epoch key the walk orders by: the epoch of the commit, when present. -/
def walkKey (repo : RepoInner) (id : Nat) : Option Int :=
  (findCommit repo id).map (fun c => c.epoch)

/-- Newest-first comparator on commit ids (descending epoch). -/
def walkCmp (repo : RepoInner) (a b : Nat) : Ordering :=
  cmpOptionInt (walkKey repo b) (walkKey repo a)

/-- Modelled from the spec: the libgit2 revwalk pushed at `tip` — "standard
chronological graph traversal from the tip, visiting each reachable commit at
most once, newest-first" — emits the reachable commits ordered newest-first by
epoch, ties broken by traversal order (stable sort over the search order). -/
def walkFrom (repo : RepoInner) (tip : Nat) : List Nat :=
  sortByCmp (walkCmp repo) (reachableAux repo (walkFuel repo) [tip] [])

/-- The `revwalk.take(100).map(...).collect::<Result<Vec<_>>>()` pipeline of
`Branch::load`: resolve each id and decode it; the first failure aborts. -/
def collectCommits (repo : RepoInner) : List Nat → Except GitError (List Commit)
  | [] => .ok []
  | id :: rest =>
    match findCommit repo id with
    | none => .error (GitError.findCommitFailed id)
    | some rc =>
      match Commit.tryFromRaw rc with
      | .error e => .error e
      | .ok c =>
        match collectCommits repo rest with
        | .error e => .error e
        | .ok cs => .ok (c :: cs)

/-- `Branch`: a named reference and its loaded bounded ancestry (the `Arc` to
the repository inner state is dropped in the embedding). -/
structure Branch where
  name : String
  typ : BranchType
  commits : List Commit
deriving DecidableEq

/-- `Branch::load`: find the branch, peel its reference to the tip commit, walk
the ancestry taking at most 100 commits, and decode each one; any failure
aborts the whole load. -/
def Branch.load (repo : Repository) (name : String) (typ : BranchType) :
    Except GitError Branch :=
  match findRef repo.inner name typ with
  | none => .error (GitError.findBranchFailed name)
  | some ref =>
    match findCommit repo.inner ref.tip with
    | none => .error GitError.peelToCommitFailed
    | some _ =>
      match collectCommits repo.inner ((walkFrom repo.inner ref.tip).take 100) with
      | .error e => .error e
      | .ok commits => .ok { name := name, typ := typ, commits := commits }

/-- One item of the `git2` branch iterator, after the `br_res?` unwrap: the
branch's name (`none` when the name is not valid UTF-8, per `git2`'s
`Branch::name` contract, which the spec describes as "a branch whose name
cannot be decoded as valid text") and its kind.  The iterator itself can also
yield errors, hence the `Except` wrapping at use sites. -/
structure RawBranchRef where
  name : Option String
  typ : BranchType
deriving DecidableEq

/-- The `iter.map(...).collect::<Result<Vec<Option<Branch>>>>()` loop of
`Repository::branches`: an iterator error or a failed load aborts; an
undecodable name yields `none`. -/
def collectEntries (repo : Repository) :
    List (Except GitError RawBranchRef) → Except GitError (List (Option Branch))
  | [] => .ok []
  | .error e :: _ => .error e
  | .ok entry :: rest =>
    match entry.name with
    | none =>
      match collectEntries repo rest with
      | .error e => .error e
      | .ok os => .ok (none :: os)
    | some n =>
      match Branch.load repo n entry.typ with
      | .error e => .error e
      | .ok b =>
        match collectEntries repo rest with
        | .error e => .error e
        | .ok os => .ok (some b :: os)

/-- `Repository::branches`: run the collection loop over the native branch
iterator's output and flatten away the skipped entries. -/
def Repository.branches (repo : Repository)
    (entries : List (Except GitError RawBranchRef)) :
    Except GitError (List Branch) :=
  match collectEntries repo entries with
  | .error e => .error e
  | .ok os => .ok (os.filterMap id)

/-! ### Branch catalog (`src/core/src/app/mod.rs`, `src/core/src/app/branch.rs`)

`BranchList` in `mod.rs` and `branch::List` in `branch.rs` are the same logic
(the former wraps each branch in a `BranchItem`); we embed it once, under the
`mod.rs` name.  The cursor lives in a ratatui `ListState`, an external
collaborator; its operations are modelled from the spec. -/

/-- `BranchSort`: the four sort modes; `DateDescending` is the default. -/
inductive BranchSort
  | nameAscending
  | nameDescending
  | dateAscending
  | dateDescending
deriving DecidableEq

instance : Inhabited BranchSort :=
  ⟨BranchSort.dateDescending⟩

/-- The `match` in `App::cycle_sort`: the fixed successor of each sort mode. -/
def nextSort : BranchSort → BranchSort
  | .nameAscending => .nameDescending
  | .nameDescending => .dateAscending
  | .dateAscending => .dateDescending
  | .dateDescending => .nameAscending

/-- `BranchTypeFilter(Option<BranchType>)`: `none` means all branches. -/
structure BranchTypeFilter where
  val : Option BranchType
deriving DecidableEq

instance : Inhabited BranchTypeFilter :=
  ⟨⟨some BranchType.Local⟩⟩

/-- `BranchTypeFilter::typ`. -/
def BranchTypeFilter.typ (f : BranchTypeFilter) : Option BranchType :=
  f.val

/-- `BranchTypeFilter::cycle`. -/
def BranchTypeFilter.cycle (f : BranchTypeFilter) : BranchTypeFilter :=
  match f.val with
  | none => ⟨some BranchType.Local⟩
  | some BranchType.Local => ⟨some BranchType.Remote⟩
  | some BranchType.Remote => ⟨none⟩

/-- ratatui's `ListState`, reduced to the piece the core reads: the selected
index.  (The widget's scroll offset is pure presentation.) -/
structure ListState where
  selected : Option Nat := none
deriving DecidableEq

/-- `ListState::select`. -/
def ListState.select (_ : ListState) (o : Option Nat) : ListState :=
  ⟨o⟩

/-- Modelled from the spec: `ListState::select_first` — the cursor moves to
the first item; on an empty list there is no item, so it is absent ("cursor set
to the first item if non-empty, else absent"). -/
def ListState.selectFirst (_ : ListState) (len : Nat) : ListState :=
  ⟨if len = 0 then none else some 0⟩

/-- Modelled from the spec: `ListState::select_last` — the cursor moves to the
last item, absent when the list is empty. -/
def ListState.selectLast (_ : ListState) (len : Nat) : ListState :=
  ⟨if len = 0 then none else some (len - 1)⟩

/-- Modelled from the spec: `ListState::select_next` — "a pure function of
current cursor and `items.length`"; clamps at the last index (no wraparound)
when a cursor exists, and initializes to the first element otherwise. -/
def ListState.selectNext (s : ListState) (len : Nat) : ListState :=
  ⟨match s.selected with
   | none => if len = 0 then none else some 0
   | some i => if i + 1 < len then some (i + 1) else some i⟩

/-- Modelled from the spec: `ListState::select_previous` — clamps at index 0
(no wraparound) when a cursor exists, and initializes to the last element
otherwise. -/
def ListState.selectPrevious (s : ListState) (len : Nat) : ListState :=
  ⟨match s.selected with
   | none => if len = 0 then none else some (len - 1)
   | some i => some (i - 1)⟩

/-- `BranchList`: the catalog — items, cursor state, sort mode, filter. -/
structure BranchList where
  items : List Branch
  state : ListState
  sort : BranchSort
  filter : BranchTypeFilter
deriving DecidableEq

/-- The date sort key: `branch.commits.first().map(|c| c.timestamp.epoch())`. -/
def dateKey (b : Branch) : Option Int :=
  b.commits.head?.map (fun c => c.timestamp.epoch)

/-- `|i1, i2| i1.branch.name.cmp(&i2.branch.name)`. -/
def nameAscCmp (b1 b2 : Branch) : Ordering :=
  cmpString b1.name b2.name

/-- `|i1, i2| i2.branch.name.cmp(&i1.branch.name)`. -/
def nameDescCmp (b1 b2 : Branch) : Ordering :=
  cmpString b2.name b1.name

/-- The `DateAscending` comparator: `i1.cmp(&i2)` on the date keys. -/
def dateAscCmp (b1 b2 : Branch) : Ordering :=
  cmpOptionInt (dateKey b1) (dateKey b2)

/-- The `DateDescending` comparator: `i2.cmp(&i1)` on the date keys. -/
def dateDescCmp (b1 b2 : Branch) : Ordering :=
  cmpOptionInt (dateKey b2) (dateKey b1)

/-- The comparator selected by the `match self.sort` in `BranchList::sort`. -/
def sortModeCmp : BranchSort → (Branch → Branch → Ordering)
  | .nameAscending => nameAscCmp
  | .nameDescending => nameDescCmp
  | .dateAscending => dateAscCmp
  | .dateDescending => dateDescCmp

/-- `BranchList::sort` (the method; named `sortItems` here because the Rust
method shares its name with the `sort` field): stable-sorts `items` in place
by the comparator of the current mode. -/
def BranchList.sortItems (l : BranchList) : BranchList :=
  { l with items := sortByCmp (sortModeCmp l.sort) l.items }

/-- `BranchList::current`: `state.selected().and_then(|i| items.get(i))`. -/
def BranchList.current (l : BranchList) : Option Branch :=
  l.state.selected.bind (fun i => l.items[i]?)

/-- `BranchList::build`: default sort, sort the items, select the first. -/
def BranchList.build (branches : List Branch) (filter : BranchTypeFilter) :
    BranchList :=
  let l : BranchList :=
    { items := branches, state := {}, sort := default, filter := filter }
  let l1 := l.sortItems
  { l1 with state := l1.state.selectFirst l1.items.length }

/-- `App::cycle_sort`: advance the mode, re-sort, select the first item. -/
def BranchList.cycleSort (l : BranchList) : BranchList :=
  let l1 := { l with sort := nextSort l.sort }
  let l2 := l1.sortItems
  { l2 with state := l2.state.selectFirst l2.items.length }

/-- `App::select_none`. -/
def BranchList.selectNone (l : BranchList) : BranchList :=
  { l with state := l.state.select none }

/-- `App::select_next`. -/
def BranchList.selectNext (l : BranchList) : BranchList :=
  { l with state := l.state.selectNext l.items.length }

/-- `App::select_previous`. -/
def BranchList.selectPrevious (l : BranchList) : BranchList :=
  { l with state := l.state.selectPrevious l.items.length }

/-- `App::select_first`. -/
def BranchList.selectFirst (l : BranchList) : BranchList :=
  { l with state := l.state.selectFirst l.items.length }

/-- `App::select_last`. -/
def BranchList.selectLast (l : BranchList) : BranchList :=
  { l with state := l.state.selectLast l.items.length }

/-- The navigation and sort operations the presentation layer can emit. -/
inductive Op
  | selectNext
  | selectPrevious
  | selectFirst
  | selectLast
  | selectNone
  | cycleSort
deriving DecidableEq

/-- Dispatch one operation, as `App::handle_key` does. -/
def applyOp (l : BranchList) : Op → BranchList
  | .selectNext => l.selectNext
  | .selectPrevious => l.selectPrevious
  | .selectFirst => l.selectFirst
  | .selectLast => l.selectLast
  | .selectNone => l.selectNone
  | .cycleSort => l.cycleSort

/-- Run a sequence of operations. -/
def applyOps (l : BranchList) (ops : List Op) : BranchList :=
  ops.foldl applyOp l

/-- The cursor validity invariant: absent, or a valid index into `items`. -/
def cursorOk (l : BranchList) : Bool :=
  match l.state.selected with
  | none => true
  | some i => decide (i < l.items.length)

/-! ### Order-theoretic facts about the date comparators -/

instance : IsTotal Branch (leCmp dateAscCmp) :=
  ⟨fun a b => cmpOptionInt_ne_gt_total (dateKey a) (dateKey b)⟩

instance : IsTrans Branch (leCmp dateAscCmp) :=
  ⟨fun _ _ _ h1 h2 => cmpOptionInt_ne_gt_trans h1 h2⟩

instance : IsTotal Branch (leCmp dateDescCmp) :=
  ⟨fun a b => cmpOptionInt_ne_gt_total (dateKey b) (dateKey a)⟩

instance : IsTrans Branch (leCmp dateDescCmp) :=
  ⟨fun _ _ _ h1 h2 => cmpOptionInt_ne_gt_trans h2 h1⟩

instance (repo : RepoInner) : IsTotal Nat (leCmp (walkCmp repo)) :=
  ⟨fun a b => cmpOptionInt_ne_gt_total (walkKey repo b) (walkKey repo a)⟩

instance (repo : RepoInner) : IsTrans Nat (leCmp (walkCmp repo)) :=
  ⟨fun _ _ _ h1 h2 => cmpOptionInt_ne_gt_trans h2 h1⟩

/-! ### Invariant preservation lemmas -/

theorem cursorOk_intro (l : BranchList)
    (h : ∀ i, l.state.selected = some i → i < l.items.length) :
    cursorOk l = true := by
  unfold cursorOk
  cases hsel : l.state.selected with
  | none => rfl
  | some i => simpa using h i hsel

theorem cursorOk_elim {l : BranchList} (h : cursorOk l = true) :
    ∀ i, l.state.selected = some i → i < l.items.length := by
  intro i hsel
  unfold cursorOk at h
  rw [hsel] at h
  simpa using h

theorem cursorOk_applyOp (l : BranchList) (o : Op) (h : cursorOk l = true) :
    cursorOk (applyOp l o) = true := by
  have hv := cursorOk_elim h
  apply cursorOk_intro
  cases o with
  | selectNone =>
    intro i hsel
    simp [applyOp, BranchList.selectNone, ListState.select] at hsel
  | selectNext =>
    intro i hsel
    simp only [applyOp, BranchList.selectNext, ListState.selectNext] at hsel ⊢
    cases hs : l.state.selected with
    | none =>
      rw [hs] at hsel
      simp only at hsel
      split at hsel
      · simp at hsel
      · have h0 := Option.some.inj hsel
        omega
    | some k =>
      have hk := hv k hs
      rw [hs] at hsel
      simp only at hsel
      split at hsel <;>
        (first
          | (have h0 := Option.some.inj hsel; omega))
  | selectPrevious =>
    intro i hsel
    simp only [applyOp, BranchList.selectPrevious, ListState.selectPrevious]
      at hsel ⊢
    cases hs : l.state.selected with
    | none =>
      rw [hs] at hsel
      simp only at hsel
      split at hsel
      · simp at hsel
      · have h0 := Option.some.inj hsel
        omega
    | some k =>
      have hk := hv k hs
      rw [hs] at hsel
      simp only at hsel
      have h0 := Option.some.inj hsel
      omega
  | selectFirst =>
    intro i hsel
    simp only [applyOp, BranchList.selectFirst, ListState.selectFirst] at hsel ⊢
    split at hsel
    · simp at hsel
    · have h0 := Option.some.inj hsel
      omega
  | selectLast =>
    intro i hsel
    simp only [applyOp, BranchList.selectLast, ListState.selectLast] at hsel ⊢
    split at hsel
    · simp at hsel
    · have h0 := Option.some.inj hsel
      omega
  | cycleSort =>
    intro i hsel
    simp only [applyOp, BranchList.cycleSort, BranchList.sortItems,
      ListState.selectFirst] at hsel ⊢
    split at hsel
    · simp at hsel
    · have h0 := Option.some.inj hsel
      omega

theorem cursorOk_build (branches : List Branch) (filter : BranchTypeFilter) :
    cursorOk (BranchList.build branches filter) = true := by
  apply cursorOk_intro
  intro i hsel
  simp only [BranchList.build, BranchList.sortItems, ListState.selectFirst]
    at hsel ⊢
  split at hsel
  · simp at hsel
  · have h0 := Option.some.inj hsel
    omega

theorem cursorOk_applyOps (l : BranchList) (ops : List Op)
    (h : cursorOk l = true) : cursorOk (applyOps l ops) = true := by
  induction ops generalizing l with
  | nil => exact h
  | cons o rest ih => exact ih (applyOp l o) (cursorOk_applyOp l o h)

/-! ### Fixtures for witnesses -/

/-- A branch with no loaded commits, for concrete witnesses. -/
def sampleBranch (n : String) : Branch :=
  { name := n, typ := BranchType.Local, commits := [] }

/-- Three sample items. -/
def fixtureItems : List Branch :=
  [sampleBranch "a", sampleBranch "b", sampleBranch "c"]

/-- A three-item catalog at a chosen cursor. -/
def fixtureAt (c : Option Nat) : BranchList :=
  { items := fixtureItems, state := ⟨c⟩, sort := default, filter := default }

/-! ### Claims -/

/-- C1.  Cursor validity invariant: in every catalog state reachable from
`build` via the navigation and sort operations (`select_next`,
`select_previous`, `select_first`, `select_last`, `select_none`,
`cycle_sort`), the cursor, if present, is a valid index strictly less than
`items.length`. -/
theorem build_ops_cursor_valid (branches : List Branch)
    (filter : BranchTypeFilter) (ops : List Op) :
    cursorOk (applyOps (BranchList.build branches filter) ops) = true :=
  cursorOk_applyOps _ ops (cursorOk_build branches filter)

/-- C2.  `select_next` then `select_previous` returns the cursor to any valid
index, with the boundary exceptions: at the last index `select_next` is a
no-op, at index 0 `select_previous` is a no-op; with no cursor set,
`select_next` initializes to the first element and `select_previous` to the
last. -/
theorem select_next_previous_spec (l : BranchList) (i : Nat) :
    (l.state.selected = some i → i + 1 < l.items.length →
      ((l.selectNext).selectPrevious).state.selected = some i)
    ∧ (l.state.selected = some i → i + 1 = l.items.length →
      (l.selectNext).state.selected = some i)
    ∧ (l.state.selected = some 0 →
      (l.selectPrevious).state.selected = some 0)
    ∧ (l.state.selected = none → l.items.length ≠ 0 →
      (l.selectNext).state.selected = some 0
      ∧ (l.selectPrevious).state.selected = some (l.items.length - 1)) := by
  refine ⟨?_, ?_, ?_, ?_⟩
  · intro hsel hlt
    simp [BranchList.selectNext, BranchList.selectPrevious,
      ListState.selectNext, ListState.selectPrevious, hsel, hlt]
  · intro hsel heq
    simp [BranchList.selectNext, ListState.selectNext, hsel]
    omega
  · intro hsel
    simp [BranchList.selectPrevious, ListState.selectPrevious, hsel]
  · intro hsel hne
    constructor
    · simp [BranchList.selectNext, ListState.selectNext, hsel, hne]
    · simp [BranchList.selectPrevious, ListState.selectPrevious, hsel, hne]

/-- Witness for C2 at concrete three-item catalogs. -/
theorem select_next_previous_spec_witness :
    (((fixtureAt (some 1)).selectNext.selectPrevious).state.selected = some 1)
    ∧ (((fixtureAt (some 2)).selectNext).state.selected = some 2)
    ∧ (((fixtureAt (some 0)).selectPrevious).state.selected = some 0)
    ∧ (((fixtureAt none).selectNext).state.selected = some 0
      ∧ ((fixtureAt none).selectPrevious).state.selected = some 2) :=
  ⟨(select_next_previous_spec (fixtureAt (some 1)) 1).1 rfl (by decide),
   (select_next_previous_spec (fixtureAt (some 2)) 2).2.1 rfl (by decide),
   (select_next_previous_spec (fixtureAt (some 0)) 0).2.2.1 rfl,
   (select_next_previous_spec (fixtureAt none) 0).2.2.2 rfl (by decide)⟩

/-- C10.  `current()` is total over all cursor states: it returns `none` when
the cursor is absent or out of bounds, and the item at the cursor index
exactly when that index is in bounds. -/
theorem current_total (l : BranchList) :
    (l.state.selected = none → l.current = none)
    ∧ (∀ i, l.state.selected = some i → l.items.length ≤ i →
      l.current = none)
    ∧ (∀ i, l.state.selected = some i → ∀ hlt : i < l.items.length,
      l.current = some (l.items.get ⟨i, hlt⟩)) := by
  refine ⟨?_, ?_, ?_⟩
  · intro hsel
    simp [BranchList.current, hsel]
  · intro i hsel hge
    simp [BranchList.current, hsel, List.getElem?_eq_none hge]
  · intro i hsel hlt
    simp [BranchList.current, hsel, List.getElem?_eq_getElem hlt]

/-- Witness for C10: absent cursor, out-of-bounds cursor, in-bounds cursor. -/
theorem current_total_witness :
    ((fixtureAt none).current = none)
    ∧ ((fixtureAt (some 5)).current = none)
    ∧ ((fixtureAt (some 1)).current = some (sampleBranch "b")) :=
  ⟨(current_total (fixtureAt none)).1 rfl,
   (current_total (fixtureAt (some 5))).2.1 5 rfl (by decide),
   ((current_total (fixtureAt (some 1))).2.2 1 rfl (by decide)).trans
     (by decide)⟩

/-- C3.  `build` produces a catalog sorted by the default sort mode
(`DateDescending`) — the items are the stable date-descending sort of the
input, hence a permutation of it, pairwise ordered by the date-descending
comparator — with the cursor on index 0 when the input is non-empty and
absent when it is empty. -/
theorem build_default_sorted (branches : List Branch)
    (filter : BranchTypeFilter) :
    (BranchList.build branches filter).sort = BranchSort.dateDescending
    ∧ (BranchList.build branches filter).items = sortByCmp dateDescCmp branches
    ∧ ((BranchList.build branches filter).items).Pairwise (leCmp dateDescCmp)
    ∧ ((BranchList.build branches filter).items).Perm branches
    ∧ (BranchList.build branches filter).state.selected =
      (if branches.length = 0 then none else some 0) := by
  refine ⟨rfl, rfl, ?_, ?_, ?_⟩
  · exact sortByCmp_sorted dateDescCmp branches
  · exact sortByCmp_perm dateDescCmp branches
  · simp only [BranchList.build, BranchList.sortItems, ListState.selectFirst,
      sortByCmp_length]

/-- C4.  `cycle_sort` advances the mode one step along the fixed cycle
`NameAscending → NameDescending → DateAscending → DateDescending →
NameAscending` (four applications restore the mode), re-sorts the items
deterministically by the new mode's comparator, and resets the cursor to
index 0 (when there are items to point at). -/
theorem cycle_sort_spec (l : BranchList) :
    (l.cycleSort).sort = nextSort l.sort
    ∧ (l.cycleSort.cycleSort.cycleSort.cycleSort).sort = l.sort
    ∧ (l.cycleSort).items = sortByCmp (sortModeCmp (nextSort l.sort)) l.items
    ∧ (l.items ≠ [] → (l.cycleSort).state.selected = some 0) := by
  refine ⟨rfl, ?_, rfl, ?_⟩
  · show nextSort (nextSort (nextSort (nextSort l.sort))) = l.sort
    cases l.sort <;> rfl
  · intro hne
    simp only [BranchList.cycleSort, BranchList.sortItems,
      ListState.selectFirst, sortByCmp_length]
    simp [List.length_eq_zero, hne]

/-- Witness for C4 at a concrete three-item catalog. -/
theorem cycle_sort_spec_witness :
    ((fixtureAt (some 2)).cycleSort).sort = nextSort (fixtureAt (some 2)).sort
    ∧ ((fixtureAt (some 2)).cycleSort).state.selected = some 0 :=
  ⟨(cycle_sort_spec (fixtureAt (some 2))).1,
   (cycle_sort_spec (fixtureAt (some 2))).2.2.2 (by decide)⟩

/-- C8.  Under date sorting the key of a branch is the epoch of the first
(newest) commit of its loaded ancestry and an empty ancestry gives the
absent (lowest) key, so after a `DateAscending` sort every empty-history
branch sits strictly before every branch with at least one commit. -/
theorem date_ascending_empty_history_first (l : BranchList)
    (h : l.sort = BranchSort.dateAscending) (i j : Nat) (bi bj : Branch)
    (hbi : (l.sortItems).items[i]? = some bi)
    (hbj : (l.sortItems).items[j]? = some bj)
    (hempty : bi.commits = []) (hnon : bj.commits ≠ []) :
    dateKey bi = none
    ∧ (∃ c, bj.commits.head? = some c ∧ dateKey bj = some c.timestamp.epoch)
    ∧ i < j := by
  have hkey_i : dateKey bi = none := by simp [dateKey, hempty]
  obtain ⟨c, cs, hc⟩ : ∃ c cs, bj.commits = c :: cs := by
    cases hcj : bj.commits with
    | nil => exact absurd hcj hnon
    | cons c cs => exact ⟨c, cs, rfl⟩
  have hkey_j : dateKey bj = some c.timestamp.epoch := by simp [dateKey, hc]
  refine ⟨hkey_i, ⟨c, by simp [hc], hkey_j⟩, ?_⟩
  have hsorted : ((l.sortItems).items).Pairwise (leCmp dateAscCmp) := by
    have hitems : (l.sortItems).items = sortByCmp dateAscCmp l.items := by
      simp [BranchList.sortItems, h, sortModeCmp]
    rw [hitems]
    exact sortByCmp_sorted dateAscCmp l.items
  obtain ⟨hilt, hieq⟩ := List.getElem?_eq_some.mp hbi
  obtain ⟨hjlt, hjeq⟩ := List.getElem?_eq_some.mp hbj
  rcases Nat.lt_trichotomy i j with hij | hij | hij
  · exact hij
  · exfalso
    subst hij
    rw [hieq] at hjeq
    subst hjeq
    rw [hempty] at hc
    exact List.noConfusion hc
  · exfalso
    have hp := List.pairwise_iff_getElem.mp hsorted j i hjlt hilt hij
    rw [hieq, hjeq] at hp
    unfold leCmp dateAscCmp at hp
    rw [hkey_i, hkey_j] at hp
    exact hp (cmpOptionInt_some_none c.timestamp.epoch)

/-- An empty-history branch and a branch with one commit, sorted by date
ascending, for the C8 witness. -/
def fixtureDateAsc : BranchList :=
  { items :=
      [{ name := "full", typ := BranchType.Local,
         commits := [{ summary := "s", message := "m",
                       author := ⟨none, none⟩,
                       timestamp := ⟨100, 100⟩ }] },
       sampleBranch "empty"],
    state := ⟨none⟩, sort := BranchSort.dateAscending, filter := default }

/-- Witness for C8: in the sorted fixture the empty-history branch (index 0)
precedes the branch with a commit (index 1). -/
theorem date_ascending_empty_history_first_witness :
    dateKey (sampleBranch "empty") = none ∧ (0 : Nat) < 1 := by
  have h := date_ascending_empty_history_first fixtureDateAsc rfl 0 1
    (sampleBranch "empty")
    { name := "full", typ := BranchType.Local,
      commits := [{ summary := "s", message := "m",
                    author := ⟨none, none⟩,
                    timestamp := ⟨100, 100⟩ }] }
    (by decide) (by decide) (by decide) (by decide)
  exact ⟨h.1, h.2.2⟩

/-- Tip commit of `main` (epoch 1000) in the C9 scenario. -/
def mainCommit : Commit :=
  { summary := "init", message := "init", author := ⟨none, none⟩,
    timestamp := ⟨1000, 1000⟩ }

/-- Tip commit of `feature` (epoch 2000) in the C9 scenario. -/
def featureCommit : Commit :=
  { summary := "feat", message := "feat", author := ⟨none, none⟩,
    timestamp := ⟨2000, 2000⟩ }

/-- The `main` branch of the C9 scenario. -/
def mainBranch : Branch :=
  { name := "main", typ := BranchType.Local, commits := [mainCommit] }

/-- The `feature` branch of the C9 scenario. -/
def featureBranch : Branch :=
  { name := "feature", typ := BranchType.Local, commits := [featureCommit] }

/-- The default catalog built over the two scenario branches. -/
def scenarioCatalog : BranchList :=
  BranchList.build [mainBranch, featureBranch] default

/-- C9.  Scenario: branches `main` (tip epoch 1000) and `feature` (tip epoch
2000); the default catalog (`DateDescending`) orders `[feature, main]`; one
`cycle_sort` yields `NameAscending`, still ordered `[feature, main]`
(alphabetical); `select_last` then puts the cursor on index 1 (`main`). -/
theorem scenario_two_branches :
    scenarioCatalog.sort = BranchSort.dateDescending
    ∧ scenarioCatalog.items = [featureBranch, mainBranch]
    ∧ (scenarioCatalog.cycleSort).sort = BranchSort.nameAscending
    ∧ (scenarioCatalog.cycleSort).items = [featureBranch, mainBranch]
    ∧ ((scenarioCatalog.cycleSort).selectLast).state.selected = some 1
    ∧ ((scenarioCatalog.cycleSort).selectLast).current = some mainBranch := by
  refine ⟨rfl, by decide, rfl, by decide, by decide, by decide⟩

/-! ### Lemmas about the commit-collection pipeline -/

theorem tryFromRaw_ok_epoch {rc : RawCommit} {c : Commit}
    (h : Commit.tryFromRaw rc = .ok c) :
    c.timestamp.epoch = rc.epoch ∧ representableEpoch rc.epoch = true := by
  unfold Commit.tryFromRaw Timestamp.tryFromNative at h
  cases hrep : representableEpoch rc.epoch with
  | false =>
    rw [hrep] at h
    simp at h
  | true =>
    rw [hrep] at h
    simp only [if_true, reduceIte] at h
    simp only [Except.ok.injEq] at h
    subst h
    exact ⟨rfl, rfl⟩

theorem collectCommits_nil_ok {repo : RepoInner} {cs : List Commit}
    (h : collectCommits repo [] = .ok cs) : cs = [] := by
  simp only [collectCommits, Except.ok.injEq] at h
  exact h.symm

theorem collectCommits_cons_ok {repo : RepoInner} {id : Nat} {rest : List Nat}
    {cs : List Commit} (h : collectCommits repo (id :: rest) = .ok cs) :
    ∃ rc c cs2, findCommit repo id = some rc ∧ Commit.tryFromRaw rc = .ok c
      ∧ collectCommits repo rest = .ok cs2 ∧ cs = c :: cs2 := by
  simp only [collectCommits] at h
  cases hfc : findCommit repo id with
  | none =>
    rw [hfc] at h
    simp at h
  | some rc =>
    rw [hfc] at h
    simp only at h
    cases htr : Commit.tryFromRaw rc with
    | error e =>
      rw [htr] at h
      simp at h
    | ok c =>
      rw [htr] at h
      simp only at h
      cases hcc : collectCommits repo rest with
      | error e =>
        rw [hcc] at h
        simp at h
      | ok cs2 =>
        rw [hcc] at h
        simp only [Except.ok.injEq] at h
        exact ⟨rc, c, cs2, rfl, htr, rfl, h.symm⟩

theorem collectCommits_ok_length {repo : RepoInner} {ids : List Nat}
    {cs : List Commit} (h : collectCommits repo ids = .ok cs) :
    cs.length = ids.length := by
  induction ids generalizing cs with
  | nil =>
    rw [collectCommits_nil_ok h]
    rfl
  | cons id rest ih =>
    obtain ⟨rc, c, cs2, _, _, hcc, rfl⟩ := collectCommits_cons_ok h
    simp [ih hcc]

theorem collectCommits_ok_mem {repo : RepoInner} {ids : List Nat}
    {cs : List Commit} (h : collectCommits repo ids = .ok cs) :
    ∀ c ∈ cs, ∃ id ∈ ids, ∃ rc, findCommit repo id = some rc
      ∧ Commit.tryFromRaw rc = .ok c := by
  induction ids generalizing cs with
  | nil =>
    rw [collectCommits_nil_ok h]
    intro c hc
    exact absurd hc (List.not_mem_nil c)
  | cons id rest ih =>
    obtain ⟨rc, c0, cs2, hfc, htr, hcc, rfl⟩ := collectCommits_cons_ok h
    intro c hc
    rcases List.mem_cons.mp hc with rfl | hc2
    · exact ⟨id, List.mem_cons_self id rest, rc, hfc, htr⟩
    · obtain ⟨id2, hid2, rc2, hfc2, htr2⟩ := ih hcc c hc2
      exact ⟨id2, List.mem_cons_of_mem id hid2, rc2, hfc2, htr2⟩

theorem collectCommits_ok_representable {repo : RepoInner} {ids : List Nat}
    {cs : List Commit} (h : collectCommits repo ids = .ok cs) :
    ∀ id ∈ ids, ∀ rc, findCommit repo id = some rc →
      representableEpoch rc.epoch = true := by
  induction ids generalizing cs with
  | nil =>
    intro id hid
    exact absurd hid (List.not_mem_nil id)
  | cons id0 rest ih =>
    obtain ⟨rc0, c0, cs2, hfc, htr, hcc, rfl⟩ := collectCommits_cons_ok h
    intro id hid rc hrc
    rcases List.mem_cons.mp hid with rfl | hid2
    · rw [hrc] at hfc
      cases hfc
      exact (tryFromRaw_ok_epoch htr).2
    · exact ih hcc id hid2 rc hrc

theorem collectCommits_ok_pairwise {repo : RepoInner} {ids : List Nat}
    {cs : List Commit} (h : collectCommits repo ids = .ok cs)
    (hp : ids.Pairwise (leCmp (walkCmp repo))) :
    cs.Pairwise (fun c1 c2 => c2.timestamp.epoch ≤ c1.timestamp.epoch) := by
  induction ids generalizing cs with
  | nil =>
    rw [collectCommits_nil_ok h]
    exact List.Pairwise.nil
  | cons id rest ih =>
    obtain ⟨rc, c, cs2, hfc, htr, hcc, rfl⟩ := collectCommits_cons_ok h
    rcases List.pairwise_cons.mp hp with ⟨hhead, htail⟩
    refine List.pairwise_cons.mpr ⟨?_, ih hcc htail⟩
    intro c2 hc2
    obtain ⟨id2, hid2, rc2, hfc2, htr2⟩ := collectCommits_ok_mem hcc c2 hc2
    have hle := hhead id2 hid2
    unfold leCmp walkCmp walkKey at hle
    rw [hfc, hfc2] at hle
    simp only [Option.map] at hle
    rw [(tryFromRaw_ok_epoch htr).1, (tryFromRaw_ok_epoch htr2).1]
    exact (cmpInt_ne_gt_iff rc2.epoch rc.epoch).mp hle

/-- C5.  A successful `Branch::load` returns at most `max_depth = 100`
commits, ordered newest-first by epoch (non-strictly; the walk breaks ties by
traversal order). -/
theorem load_bounded_sorted (repo : Repository) (name : String)
    (typ : BranchType) (b : Branch) (h : Branch.load repo name typ = .ok b) :
    b.commits.length ≤ 100
    ∧ b.commits.Pairwise (fun c1 c2 => c2.timestamp.epoch ≤ c1.timestamp.epoch)
    := by
  unfold Branch.load at h
  cases href : findRef repo.inner name typ with
  | none =>
    rw [href] at h
    simp at h
  | some ref =>
    rw [href] at h
    simp only at h
    cases hfc : findCommit repo.inner ref.tip with
    | none =>
      rw [hfc] at h
      simp at h
    | some rc =>
      rw [hfc] at h
      simp only at h
      cases hcc : collectCommits repo.inner
          ((walkFrom repo.inner ref.tip).take 100) with
      | error e =>
        rw [hcc] at h
        simp at h
      | ok commits =>
        rw [hcc] at h
        simp only [Except.ok.injEq] at h
        subst h
        constructor
        · rw [collectCommits_ok_length hcc]
          exact List.length_take_le 100 _
        · apply collectCommits_ok_pairwise hcc
          exact (sortByCmp_sorted (walkCmp repo.inner) _).sublist
            (List.take_sublist _ _)

/-- The tip commit (id 1, epoch 2000, parent id 2) of the sample repo. -/
def rawTip : RawCommit :=
  ⟨1, [2], some "a", some "ma", none, none, 2000, 0⟩

/-- The parent commit (id 2, epoch 1000) of the sample repo. -/
def rawParent : RawCommit :=
  ⟨2, [], some "b", some "mb", none, none, 1000, 0⟩

/-- A two-commit repository with one local branch `main` at the tip. -/
def sampleRepo : Repository :=
  ⟨⟨[rawTip, rawParent], [⟨"main", BranchType.Local, 1⟩]⟩⟩

/-- What loading `main` from `sampleRepo` produces. -/
def loadedMain : Branch :=
  ⟨"main", BranchType.Local,
   [⟨"a", "ma", ⟨none, none⟩, ⟨2000, 2000⟩⟩,
    ⟨"b", "mb", ⟨none, none⟩, ⟨1000, 1000⟩⟩]⟩

/-- Witness for C5 on the concrete two-commit repository. -/
theorem load_bounded_sorted_witness :
    loadedMain.commits.length ≤ 100
    ∧ loadedMain.commits.Pairwise
      (fun c1 c2 => c2.timestamp.epoch ≤ c1.timestamp.epoch) :=
  load_bounded_sorted sampleRepo "main" BranchType.Local loadedMain (by decide)

/-- C6.  Decoding a native commit time fails exactly when the epoch seconds
are not representable as a calendar instant, and one such failure aborts the
whole branch load: a successful load contains only representable timestamps,
and a non-representable commit inside the 100-commit window forces
`Branch::load` to return an error instead of substituting a default. -/
theorem timestamp_decode_policy (e o : Int) (repo : Repository)
    (name : String) (typ : BranchType) :
    ((∃ t, Timestamp.tryFromNative e o = .ok t) ↔ representableEpoch e = true)
    ∧ (Timestamp.tryFromNative e o = .error (GitError.invalidEpoch e)
      ↔ representableEpoch e = false)
    ∧ (∀ b, Branch.load repo name typ = .ok b →
        ∀ c ∈ b.commits, representableEpoch c.timestamp.epoch = true)
    ∧ (∀ ref, findRef repo.inner name typ = some ref →
        (∃ rc0, findCommit repo.inner ref.tip = some rc0) →
        (∃ id ∈ (walkFrom repo.inner ref.tip).take 100, ∃ rc,
          findCommit repo.inner id = some rc
          ∧ representableEpoch rc.epoch = false) →
        ∃ err, Branch.load repo name typ = .error err) := by
  refine ⟨?_, ?_, ?_, ?_⟩
  · cases hrep : representableEpoch e <;>
      simp [Timestamp.tryFromNative, hrep]
  · cases hrep : representableEpoch e <;>
      simp [Timestamp.tryFromNative, hrep]
  · intro b hload c hc
    unfold Branch.load at hload
    cases href : findRef repo.inner name typ with
    | none =>
      rw [href] at hload
      simp at hload
    | some ref =>
      rw [href] at hload
      simp only at hload
      cases hfc : findCommit repo.inner ref.tip with
      | none =>
        rw [hfc] at hload
        simp at hload
      | some rc =>
        rw [hfc] at hload
        simp only at hload
        cases hcc : collectCommits repo.inner
            ((walkFrom repo.inner ref.tip).take 100) with
        | error err =>
          rw [hcc] at hload
          simp at hload
        | ok commits =>
          rw [hcc] at hload
          simp only [Except.ok.injEq] at hload
          subst hload
          obtain ⟨id, _, rc2, hfc2, htr2⟩ := collectCommits_ok_mem hcc c hc
          rw [(tryFromRaw_ok_epoch htr2).1]
          exact (tryFromRaw_ok_epoch htr2).2
  · intro ref href hrc0 hbad
    obtain ⟨rc0, hfc0⟩ := hrc0
    unfold Branch.load
    rw [href]
    simp only
    rw [hfc0]
    simp only
    cases hcc : collectCommits repo.inner
        ((walkFrom repo.inner ref.tip).take 100) with
    | error err => exact ⟨err, rfl⟩
    | ok commits =>
      exfalso
      obtain ⟨id, hid, rc, hfc, hrep⟩ := hbad
      rw [collectCommits_ok_representable hcc id hid rc hfc] at hrep
      exact Bool.noConfusion hrep

/-- A repository whose only commit has a non-representable epoch. -/
def rawBad : RawCommit :=
  ⟨7, [], some "x", some "y", none, none, 9300000000000000, 0⟩

/-- A one-branch repository around `rawBad`. -/
def badRepo : Repository :=
  ⟨⟨[rawBad], [⟨"dev", BranchType.Local, 7⟩]⟩⟩

/-- Witness for C6: epoch `9300000000000000` is out of range, its decode
fails with `InvalidEpoch`, and loading the branch whose tip carries it
errors out. -/
theorem timestamp_decode_policy_witness :
    representableEpoch 9300000000000000 = false
    ∧ Timestamp.tryFromNative 9300000000000000 0 =
      .error (GitError.invalidEpoch 9300000000000000)
    ∧ (∃ err, Branch.load badRepo "dev" BranchType.Local = .error err) := by
  have h := timestamp_decode_policy 9300000000000000 0 badRepo "dev"
    BranchType.Local
  refine ⟨by decide, h.2.1.mpr (by decide), ?_⟩
  exact h.2.2.2 ⟨"dev", BranchType.Local, 7⟩ (by decide) ⟨rawBad, by decide⟩
    ⟨7, by decide, rawBad, by decide, by decide⟩

/-- How `Repository::branches` treats an entry whose name failed to decode:
the entry contributes `None`, which `flatten` drops. -/
theorem branches_cons_skip (repo : Repository) (t : BranchType)
    (L : List (Except GitError RawBranchRef)) :
    Repository.branches repo (Except.ok ⟨none, t⟩ :: L) =
      Repository.branches repo L := by
  have hstep : collectEntries repo (Except.ok ⟨none, t⟩ :: L) =
      (match collectEntries repo L with
       | .error e => .error e
       | .ok os => .ok (none :: os)) := rfl
  unfold Repository.branches
  rw [hstep]
  cases hce : collectEntries repo L <;> simp [hce]

/-- How `Repository::branches` treats an entry with a decodable name: the
branch is loaded, a failed load aborts, a successful one is prepended. -/
theorem branches_cons_named (repo : Repository) (n : String) (t : BranchType)
    (L : List (Except GitError RawBranchRef)) :
    Repository.branches repo (Except.ok ⟨some n, t⟩ :: L) =
      (match Branch.load repo n t with
       | .error e => .error e
       | .ok b => (Repository.branches repo L).map (fun bs => b :: bs)) := by
  have hstep : collectEntries repo (Except.ok ⟨some n, t⟩ :: L) =
      (match Branch.load repo n t with
       | .error e => .error e
       | .ok b =>
         match collectEntries repo L with
         | .error e => .error e
         | .ok os => .ok (some b :: os)) := rfl
  unfold Repository.branches
  rw [hstep]
  cases hld : Branch.load repo n t with
  | error e => simp
  | ok b => cases hce : collectEntries repo L <;> simp [hce, Except.map]

/-- C7.  A branch whose name cannot be decoded as valid text is silently
omitted during enumeration: inserting such an entry anywhere in the iterator
output leaves the result of `Repository::branches` unchanged — the
enumeration neither fails nor loses the other branches. -/
theorem undecodable_name_skipped (repo : Repository) (typ : BranchType)
    (pre post : List (Except GitError RawBranchRef)) :
    Repository.branches repo (pre ++ Except.ok ⟨none, typ⟩ :: post) =
      Repository.branches repo (pre ++ post) := by
  induction pre with
  | nil =>
    simp only [List.nil_append]
    rw [branches_cons_skip]
  | cons a pre ih =>
    cases a with
    | error e => rfl
    | ok entry =>
      obtain ⟨nm, t⟩ := entry
      cases nm with
      | none =>
        simp only [List.cons_append]
        rw [branches_cons_skip, branches_cons_skip, ih]
      | some n =>
        simp only [List.cons_append]
        rw [branches_cons_named, branches_cons_named, ih]

end Grit
